import Mathlib

/-!
Verification development for the fs-template serverless backend.

The definitions below are a shallow embedding of the repository's core
framework code:

* `withRetry` from `packages/utils/src/tools/retry.ts`;
* the `Saga` orchestrator from the saga module (`SagaStep`, `Saga.execute`,
  and its private `compensate` loop);
* the SQS adapter factory (`processRecord` and the batch driver) from the
  SQS adapter module, including `getQueueUrlFromArn`;
* the Lambda adapter factory from
  `packages/core/src/lib/lambda-adapter.factory.ts`, together with
  `handleError` from the custom-error module, `HttpResponses` from
  `packages/utils/src/tools/http-status.ts`, and
  `SaaSIdentityVendingMachine.getValidUser` from
  `packages/utils/src/tools/saas-identity.ts`.

Asynchronous functions are modelled as total functions into `Except`;
observable effects (use-case invocations, SQS `DeleteMessage` sends, retry
sleeps) are modelled as events accumulated in a trace list.  External calls
that the claims treat as the environment (the SQS delete itself, JWT
verification) are modelled by their outcome.
-/

namespace FsTemplate

/-- Decidable equality for `Except`, used to evaluate the embedding on
concrete inputs. -/
instance exceptDecidableEq {E A : Type} [DecidableEq E] [DecidableEq A] :
    DecidableEq (Except E A) := fun x y =>
  match x, y with
  | Except.ok a, Except.ok b =>
    if h : a = b then isTrue (by rw [h]) else isFalse (fun hc => by cases hc; exact h rfl)
  | Except.ok _, Except.error _ => isFalse (fun hc => by cases hc)
  | Except.error _, Except.ok _ => isFalse (fun hc => by cases hc)
  | Except.error e, Except.error e2 =>
    if h : e = e2 then isTrue (by rw [h]) else isFalse (fun hc => by cases hc; exact h rfl)

/-! ## Retry (`packages/utils/src/tools/retry.ts`) -/

/-- Outcome of one attempt of the wrapped operation `fn`: it either resolves
with a value or rejects with an error `e`.  The flag `retryable` records
whether the thrown error is a `ZodError` or a `SyntaxError`, the only two
error classes the `withRetry` loop retries. -/
inductive AttemptOutcome (E V : Type) where
  | ok (v : V)
  | err (retryable : Bool) (e : E)
deriving DecidableEq

/-- Observable events of one `withRetry` run: an invocation of `fn` at a given
1-based attempt number, a `setTimeout` sleep of `ms` milliseconds, and a call
of the configured `config.onRetry` callback.  The `onRetryCall` constructor
exists so that the presence or absence of such calls is expressible; the body
of `withRetry` in the source never invokes `config.onRetry`, so the embedding
never emits this event. -/
inductive RetryEvent where
  | call (attempt : Nat)
  | sleep (ms : Nat)
  | onRetryCall (attempt : Nat)
deriving DecidableEq

/-- Final outcome of a `withRetry` run: the wrapped function's value, a
re-thrown error of the wrapped function, or the synthetic
`Error('Max retries reached. Unable to generate valid output.')` thrown after
the loop exits (reachable only when `config.retries = 0`). -/
inductive RetryResult (E V : Type) where
  | ok (v : V)
  | thrown (e : E)
  | exhausted
deriving DecidableEq

/-- The attempt loop of `withRetry`.  `f attempt` is the behaviour of the
wrapped `fn` on the given 1-based attempt; `remaining` counts the attempts
still allowed (`config.retries - attempt + 1`).  Mirrors the source loop:
a success returns immediately; a `ZodError`/`SyntaxError` sleeps `delay`
milliseconds and continues unless this was the last allowed attempt, in which
case the error is re-thrown; any other error is re-thrown at once; if the
loop exits (only possible when `remaining` starts at `0`) the synthetic
max-retries error is thrown. -/
def withRetryGo {E V : Type} (f : Nat → AttemptOutcome E V) (delay : Nat) :
    Nat → Nat → List RetryEvent × RetryResult E V
  | 0, _ => ([], RetryResult.exhausted)
  | r + 1, attempt =>
    match f attempt with
    | AttemptOutcome.ok v => ([RetryEvent.call attempt], RetryResult.ok v)
    | AttemptOutcome.err true e =>
      if r = 0 then
        ([RetryEvent.call attempt], RetryResult.thrown e)
      else
        let rest := withRetryGo f delay r (attempt + 1)
        (RetryEvent.call attempt :: RetryEvent.sleep delay :: rest.1, rest.2)
    | AttemptOutcome.err false e => ([RetryEvent.call attempt], RetryResult.thrown e)

/-- The function returned by `withRetry(fn, config)`, applied to a fixed
argument vector: runs the attempt loop with `attempt = 1` and
`config.retries` attempts allowed, with a `config.delay` sleep between
attempts. -/
def withRetry {E V : Type} (f : Nat → AttemptOutcome E V) (retries delay : Nat) :
    List RetryEvent × RetryResult E V :=
  withRetryGo f delay retries 1

/-- Recognizer for invocation events of the wrapped function. -/
def isCall : RetryEvent → Bool
  | RetryEvent.call _ => true
  | _ => false

/-- Recognizer for retry-sleep events. -/
def isSleep : RetryEvent → Bool
  | RetryEvent.sleep _ => true
  | _ => false

/-- Recognizer for `config.onRetry` callback invocations. -/
def isOnRetryCall : RetryEvent → Bool
  | RetryEvent.onRetryCall _ => true
  | _ => false

/-- Number of invocations of the wrapped function in a trace. -/
def callCount (tr : List RetryEvent) : Nat := (tr.filter isCall).length

/-- Number of retry sleeps in a trace. -/
def sleepCount (tr : List RetryEvent) : Nat := (tr.filter isSleep).length

/-- Number of `config.onRetry` invocations in a trace. -/
def onRetryCount (tr : List RetryEvent) : Nat := (tr.filter isOnRetryCall).length

/-! ## Saga orchestrator -/

/-- One saga step, as in the source: `{execute: () => Promise<T>, compensate:
() => Promise<void>}`.  The behaviour of each thunk is modelled by its
outcome. -/
structure SagaStep (E V : Type) where
  execute : Except E V
  compensate : Except E Unit

/-- Observable saga events: `steps[i].execute()` was called,
`steps[i].compensate()` was called, and a compensation error for step `i` was
caught and logged. -/
inductive SagaEv where
  | execCall (i : Nat)
  | compCall (i : Nat)
  | compErr (i : Nat)
deriving DecidableEq

/-- The `Saga` class: the step list plus the mutable fields `results` and
`completedSteps`, which persist across calls to `execute`. -/
structure Saga (E V : Type) where
  steps : List (SagaStep E V)
  results : List V := []
  completedSteps : Nat := 0

/-- Intermediate state of the forward loop of `Saga.execute`. -/
structure RunState (E V : Type) where
  trace : List SagaEv
  failure : Option E
  results : List V
  completedSteps : Nat

/-- The forward loop of `Saga.execute`: for `i` from the current position to
the end, run `steps[i].execute()`; on success push the result and increment
`completedSteps`; on rejection stop with the failure recorded. -/
def runSteps {E V : Type} :
    List (SagaStep E V) → Nat → List V → Nat → RunState E V
  | [], _, acc, c => ⟨[], none, acc, c⟩
  | st :: rest, i, acc, c =>
    match st.execute with
    | Except.ok v =>
      let r := runSteps rest (i + 1) (acc ++ [v]) (c + 1)
      ⟨SagaEv.execCall i :: r.trace, r.failure, r.results, r.completedSteps⟩
    | Except.error e => ⟨[SagaEv.execCall i], some e, acc, c⟩

/-- The private `compensate` loop: for `i` from `completedSteps - 1` down to
`0`, call `steps[i].compensate()` inside a `try`; a rejection is logged and
the loop continues.  When `i` is out of range (possible only if
`completedSteps` exceeds the step count), `this.steps[i]` is `undefined` and
the member call throws inside the same `try`, which is likewise logged. -/
def compensateFrom {E V : Type} (steps : List (SagaStep E V)) : Nat → List SagaEv
  | 0 => []
  | j + 1 =>
    (match steps.get? j with
     | some st =>
       match st.compensate with
       | Except.ok _ => [SagaEv.compCall j]
       | Except.error _ => [SagaEv.compCall j, SagaEv.compErr j]
     | none => [SagaEv.compErr j]) ++ compensateFrom steps j

/-- `Saga.execute()`: run the forward loop from step `0` over the whole step
list, starting from the instance's current `results` and `completedSteps`.
On success resolve with `this.results`; on a step failure run the
compensation loop and re-throw the original error.  Returns the event trace,
the promise outcome, and the post-call instance state. -/
def Saga.execute {E V : Type} (s : Saga E V) :
    List SagaEv × Except E (List V) × Saga E V :=
  let r := runSteps s.steps 0 s.results s.completedSteps
  match r.failure with
  | none =>
    (r.trace, Except.ok r.results,
      { s with results := r.results, completedSteps := r.completedSteps })
  | some e =>
    (r.trace ++ compensateFrom s.steps r.completedSteps, Except.error e,
      { s with results := r.results, completedSteps := r.completedSteps })

/-- Indices of `compensate` invocations in a saga trace, in order. -/
def compIndices : List SagaEv → List Nat
  | [] => []
  | SagaEv.compCall j :: tr => j :: compIndices tr
  | SagaEv.execCall _ :: tr => compIndices tr
  | SagaEv.compErr _ :: tr => compIndices tr

/-- Indices of `execute` invocations in a saga trace, in order. -/
def execIndices : List SagaEv → List Nat
  | [] => []
  | SagaEv.execCall i :: tr => i :: execIndices tr
  | SagaEv.compCall _ :: tr => execIndices tr
  | SagaEv.compErr _ :: tr => execIndices tr

/-- Values produced by the steps whose `execute` resolves, in step order. -/
def execValues {E V : Type} (steps : List (SagaStep E V)) : List V :=
  steps.filterMap (fun st =>
    match st.execute with
    | Except.ok v => some v
    | Except.error _ => none)

/-- Saga state after the first `execute` call. -/
def firstRun {E V : Type} (steps : List (SagaStep E V)) :
    List SagaEv × Except E (List V) × Saga E V :=
  (Saga.mk steps [] 0).execute

/-- Result of calling `execute` a second time on the same instance. -/
def secondRun {E V : Type} (steps : List (SagaStep E V)) :
    List SagaEv × Except E (List V) × Saga E V :=
  (firstRun steps).2.2.execute

/-- All step executions before position `k` resolve. -/
def okBefore {E V : Type} (steps : List (SagaStep E V)) (k : Nat) : Prop :=
  ∀ j, j < k → ∃ sj v, steps.get? j = some sj ∧ sj.execute = Except.ok v

/-! ## SQS adapter factory

Errors inside record processing surface only through their message string
(the adapter logs and propagates `recordError.message`), so errors in this
module are modelled as `String`.  The `DeleteMessageCommand` sent over the
SQS client is modelled as an emitted `deleteMsg` action; the network send
itself is environment behaviour outside the claims. -/

/-- One SQS record, with the fields the adapter reads.  `body` is the raw
JSON string. -/
structure SqsRecord where
  messageId : String
  body : String
  receiptHandle : String
  eventSourceARN : String
deriving DecidableEq

/-- Character-level embedding of the JavaScript `arnString.split(':')`:
splits on every colon, keeping empty segments, and yields one empty segment
for the empty string. -/
def splitColon : List Char → List (List Char)
  | [] => [[]]
  | c :: rest =>
    let r := splitColon rest
    if c = ':' then [] :: r
    else
      match r with
      | [] => [[c]]
      | g :: gs => (c :: g) :: gs

/-- `getQueueUrlFromArn`: split the ARN on `:`; fewer than 6 parts is an
`Invalid ARN format` error; otherwise build the queue URL from the region,
account id and queue name parts. -/
def getQueueUrlFromArn (arnString : String) : Except String String :=
  let parts := (splitColon arnString.toList).map (fun l => String.mk l)
  if parts.length < 6 then Except.error "Invalid ARN format"
  else
    let region := parts.getD 3 ""
    let accountId := parts.getD 4 ""
    let queueName := parts.getD 5 ""
    Except.ok ("https://sqs." ++ region ++ ".amazonaws.com/" ++ accountId ++ "/" ++ queueName)

/-- The per-adapter processing functions: the configured `messageExtractor`,
the Zod `schema.parse`, and the `useCase`, each modelled by its outcome with
the thrown error's message. -/
structure SqsPipeline (M I O : Type) where
  messageExtractor : SqsRecord → Except String M
  schemaParse : M → Except String I
  useCase : I → Except String O

/-- Options of `createSqsAdapter` relevant to the claims (`loggerPrefix` and
`verboseLogging` only affect logging). -/
structure SqsAdapterOptions where
  processInParallel : Bool := true
  continueOnError : Bool := true
deriving DecidableEq

/-- Observable actions of record processing: the `useCase` invocation (with
whether it resolved) and the SQS `DeleteMessageCommand` send. -/
inductive QAction where
  | invoke (ok : Bool)
  | deleteMsg (queueUrl : String) (receiptHandle : String)
deriving DecidableEq

/-- Element of the batch result array: the use case's value for a record that
was processed and acknowledged, or the `{error: errorMessage}` object the
`catch` block returns when `continueOnError` is set.  The object carries only
the message — no record id. -/
inductive RecResult (O : Type) where
  | success (result : O)
  | errEntry (error : String)
deriving DecidableEq

/-- `processRecord`: extract the raw message, `schema.parse` it, run the use
case, check `eventSourceARN`, derive the queue URL and send the delete.  Any
throw lands in the `catch` block: with `continueOnError` the record yields an
`{error}` entry, otherwise the error is re-thrown (modelled as
`Except.error`). -/
def processRecord {M I O : Type} (p : SqsPipeline M I O) (continueOnError : Bool)
    (r : SqsRecord) : List QAction × Except String (RecResult O) :=
  let recover := fun (acts : List QAction) (msg : String) =>
    if continueOnError then (acts, Except.ok (RecResult.errEntry msg))
    else (acts, (Except.error msg : Except String (RecResult O)))
  match p.messageExtractor r with
  | Except.error msg => recover [] msg
  | Except.ok rawMessage =>
    match p.schemaParse rawMessage with
    | Except.error msg => recover [] msg
    | Except.ok validatedInput =>
      match p.useCase validatedInput with
      | Except.error msg => recover [QAction.invoke false] msg
      | Except.ok result =>
        if r.eventSourceARN = "" then
          recover [QAction.invoke true] "Missing eventSourceARN in SQS record"
        else
          match getQueueUrlFromArn r.eventSourceARN with
          | Except.error msg => recover [QAction.invoke true] msg
          | Except.ok queueUrl =>
            ([QAction.invoke true, QAction.deleteMsg queueUrl r.receiptHandle],
              Except.ok (RecResult.success result))

/-- Sequential batch processing (`processInParallel = false`): records are
processed strictly in array order; a record whose `processRecord` throws
(only possible with `continueOnError = false`) aborts the loop, so later
records are never touched.  Actions are tagged with the array index of the
record that produced them. -/
def processSeq {M I O : Type} (p : SqsPipeline M I O) (continueOnError : Bool) :
    List SqsRecord → Nat → List (Nat × QAction) × Except String (List (RecResult O))
  | [], _ => ([], Except.ok [])
  | r :: rest, i =>
    let pr := processRecord p continueOnError r
    let tagged := pr.1.map (fun a => (i, a))
    match pr.2 with
    | Except.error msg => (tagged, Except.error msg)
    | Except.ok res =>
      let rst := processSeq p continueOnError rest (i + 1)
      match rst.2 with
      | Except.error msg => (tagged ++ rst.1, Except.error msg)
      | Except.ok rs => (tagged ++ rst.1, Except.ok (res :: rs))

/-- Parallel batch processing (`Promise.all(event.Records.map(processRecord))`):
every record's promise is created up front and runs to completion — a
rejection does not cancel the others — and the batch result is the rejection
of the earliest failing record, or the array of all results.  (Which
rejection `Promise.all` reports is temporally nondeterministic in the source;
the model picks the first in array order, and no claim depends on it.) -/
def processPar {M I O : Type} (p : SqsPipeline M I O) (continueOnError : Bool) :
    List SqsRecord → Nat → List (Nat × QAction) × Except String (List (RecResult O))
  | [], _ => ([], Except.ok [])
  | r :: rest, i =>
    let pr := processRecord p continueOnError r
    let tagged := pr.1.map (fun a => (i, a))
    let rst := processPar p continueOnError rest (i + 1)
    (tagged ++ rst.1,
      match pr.2, rst.2 with
      | Except.error msg, _ => Except.error msg
      | Except.ok _, Except.error msg => Except.error msg
      | Except.ok res, Except.ok rs => Except.ok (res :: rs))

/-- Outcome of one invocation of the handler returned by `createSqsAdapter`:
the array of per-record results, or — when a record error propagates or the
batch is empty — the `handleError(error)` response of the outer `catch`,
modelled by the error message it classifies. -/
inductive BatchOutcome (O : Type) where
  | results (rs : List (RecResult O))
  | fatal (errMsg : String)
deriving DecidableEq

/-- The handler returned by `createSqsAdapter`: an empty record list is a
fatal `Missing SQS Records` error; otherwise the records are processed in
parallel or sequentially per the options, and a propagated record error is
caught by the outer `catch`. -/
def sqsHandler {M I O : Type} (p : SqsPipeline M I O) (opts : SqsAdapterOptions)
    (records : List SqsRecord) : List (Nat × QAction) × BatchOutcome O :=
  if records.isEmpty then ([], BatchOutcome.fatal "Missing SQS Records")
  else
    let pr := if opts.processInParallel then processPar p opts.continueOnError records 0
              else processSeq p opts.continueOnError records 0
    match pr.2 with
    | Except.ok rs => (pr.1, BatchOutcome.results rs)
    | Except.error msg => (pr.1, BatchOutcome.fatal msg)

/-- Recognizer for SQS delete actions. -/
def isDelete : QAction → Bool
  | QAction.deleteMsg _ _ => true
  | _ => false

/-- Number of delete actions attributed to the record at array index `i`. -/
def deleteCount (tr : List (Nat × QAction)) (i : Nat) : Nat :=
  (tr.filter (fun x => x.1 == i && isDelete x.2)).length

/-- The record's extraction, validation and use-case invocation all resolve. -/
def recordOk {M I O : Type} (p : SqsPipeline M I O) (r : SqsRecord) : Bool :=
  match p.messageExtractor r with
  | Except.error _ => false
  | Except.ok rawMessage =>
    match p.schemaParse rawMessage with
    | Except.error _ => false
    | Except.ok validatedInput =>
      match p.useCase validatedInput with
      | Except.error _ => false
      | Except.ok _ => true

/-- The record carries a well-formed source ARN, as every record delivered by
SQS does: non-empty and with at least the six colon-separated ARN parts. -/
def arnOk (r : SqsRecord) : Prop :=
  r.eventSourceARN ≠ "" ∧ 6 ≤ (splitColon r.eventSourceARN.toList).length

/-- The batch-result entry a record contributes when `continueOnError` is
set. -/
def recEntry {M I O : Type} (p : SqsPipeline M I O) (r : SqsRecord) : RecResult O :=
  match (processRecord p true r).2 with
  | Except.ok res => res
  | Except.error msg => RecResult.errEntry msg

/-! ## Lambda adapter factory, error classifier, identity resolver -/

/-- Minimal JSON value model for parsed request bodies. -/
inductive Json where
  | null
  | bool (b : Bool)
  | num (n : Int)
  | str (s : String)
  | arr (elems : List Json)
  | obj (fields : List (String × Json))

/-- Thrown JavaScript errors, by the classes `handleError` distinguishes:
`AppError` (from `createError`, with its status code and message), Zod's
`ZodError`, the `SyntaxError` thrown by `JSON.parse`, and any other plain
`Error`. -/
inductive JsError where
  | appError (statusCode : Nat) (message : String)
  | zodError (message : String)
  | syntaxError (message : String)
  | genericError (message : String)
deriving DecidableEq

/-- HTTP response as built by `createHttpResponse`: the status code and the
`message` of the JSON body `{message}` that `handleError` produces.  (The
constant `Content-Type: application/json` header, the `JSON.stringify`
serialization of the body and `isBase64Encoded = false` are not modelled;
no claim mentions them.) -/
structure HttpResponse where
  statusCode : Nat
  message : String
deriving DecidableEq

/-- Whether `pat` starts the character list `s`. -/
def startsWithChars : List Char → List Char → Bool
  | _, [] => true
  | [], _ :: _ => false
  | c :: cs, d :: ds => c = d && startsWithChars cs ds

/-- Whether `pat` occurs inside the character list `s`. -/
def containsChars : List Char → List Char → Bool
  | [], pat => pat.isEmpty
  | s :: rest, pat => startsWithChars (s :: rest) pat || containsChars rest pat

/-- Embedding of JavaScript `s.includes(pat)`. -/
def strContains (s pat : String) : Bool :=
  containsChars s.toList pat.toList

/-- `handleError` from the custom-error module: an `AppError` becomes a 400
response with the fixed body message `AppError` (the `AppError`'s own status
code and message are discarded); a `ZodError` becomes a 400 `Zod validation
error`; a `SyntaxError` whose message includes `JSON` becomes a 400
`Invalid JSON in request body`; everything else becomes a 500
`Internal Server Error`. -/
def handleError : JsError → HttpResponse
  | JsError.appError _ _ => { statusCode := 400, message := "AppError" }
  | JsError.zodError _ => { statusCode := 400, message := "Zod validation error" }
  | JsError.syntaxError m =>
    if strContains m "JSON" then { statusCode := 400, message := "Invalid JSON in request body" }
    else { statusCode := 500, message := "Internal Server Error" }
  | JsError.genericError _ => { statusCode := 500, message := "Internal Server Error" }

/-- The authenticated user information. -/
structure ValidUser where
  userId : String
  keyId : Option String := none
deriving DecidableEq

/-- `SaaSIdentityVendingMachine.getValidUser`: `getValidUserFromAuthHeader`
returns a valid user or `null` (on a missing header, an undecodable token, or
claims failing the schema — all its failures are caught and become `null`);
on `null` the thrown `Unable to Validate User` error is caught and replaced
by a plain `Error('Unauthorized')`.  The argument is the outcome of the
auth-header resolution for the event. -/
def getValidUser (authHeaderUser : Option ValidUser) : Except JsError ValidUser :=
  match authHeaderUser with
  | some u => Except.ok u
  | none => Except.error (JsError.genericError "Unauthorized")

/-- Raw request body: either a string `JSON.parse` rejects, or one that
parses to a JSON value. -/
inductive RawBody where
  | invalidJson
  | json (value : Json)

/-- `JSON.parse(event.body)`: a malformed body throws a `SyntaxError` whose
message names JSON. -/
def jsonParse : RawBody → Except JsError Json
  | RawBody.invalidJson => Except.error (JsError.syntaxError "Unexpected token in JSON at position 0")
  | RawBody.json v => Except.ok v

/-- An API Gateway event, by the parts the adapter reads: the outcome of
resolving the authorization header's credential (absent or invalid
credentials give `none`), and the request body (`none` for an absent
body). -/
structure ApiEvent where
  authHeaderUser : Option ValidUser := none
  body : Option RawBody := none

/-- Configuration options of `createLambdaAdapter`.  The source tests each
flag with `!== false`, so an omitted flag behaves as `true`; the defaults
model `defaultOptions`. -/
structure LambdaAdapterOptions where
  requireAuth : Bool := true
  requireBody : Bool := true
  requiredFields : List String := []
deriving DecidableEq

/-- JavaScript property access `parsedBody[field]`, as used by the
required-fields check: on a JSON object the property is `undefined` exactly
when the key is absent (`JSON.parse` never produces `undefined` values); on
`null` the access itself throws a `TypeError`; on other primitives the
properties looked up here are `undefined`. -/
def jsField : Json → String → Except JsError (Option Json)
  | Json.null, _ => Except.error (JsError.genericError "Cannot read properties of null")
  | Json.obj fields, f => Except.ok (fields.lookup f)
  | _, _ => Except.ok none

/-- The required-fields loop of `createLambdaAdapter`: for each configured
field, throw a 400 `Missing required field` `AppError` if the parsed body
maps it to `undefined`. -/
def checkRequiredFields (requiredFields : List String) (parsedBody : Json) :
    Except JsError Unit :=
  match requiredFields with
  | [] => Except.ok ()
  | f :: rest =>
    match jsField parsedBody f with
    | Except.error e => Except.error e
    | Except.ok none => Except.error (JsError.appError 400 ("Missing required field: " ++ f))
    | Except.ok (some _) => checkRequiredFields rest parsedBody

/-- Authentication step of the adapter: `validUser` starts as `{userId: ''}`;
when `options.requireAuth !== false` it is replaced by `getUserInfo(event)`
(the default `SaaSIdentityVendingMachine`), and an empty `userId` is a 400
`Missing user id` `AppError`. -/
def runAuth (options : LambdaAdapterOptions) (event : ApiEvent) :
    Except JsError ValidUser :=
  if options.requireAuth ≠ false then
    match getValidUser event.authHeaderUser with
    | Except.error e => Except.error e
    | Except.ok u =>
      if u.userId = "" then Except.error (JsError.appError 400 "Missing user id")
      else Except.ok u
  else Except.ok { userId := "" }

/-- Body validation step of the adapter: when `options.requireBody !== false`,
a missing body is a 400 `Missing request body` `AppError`; the body is then
`JSON.parse`d and, when `requiredFields` is configured non-empty, checked
field by field. -/
def runBodyChecks (options : LambdaAdapterOptions) (event : ApiEvent) :
    Except JsError Unit :=
  if options.requireBody ≠ false then
    match event.body with
    | none => Except.error (JsError.appError 400 "Missing request body")
    | some raw =>
      match jsonParse raw with
      | Except.error e => Except.error e
      | Except.ok parsedBody =>
        if options.requiredFields.length > 0 then
          checkRequiredFields options.requiredFields parsedBody
        else Except.ok ()
  else Except.ok ()

/-- The per-adapter functions of `createLambdaAdapter`: the `eventParser`,
the Zod `schema.parse`, the `useCase`, and the `responseFormatter`. -/
structure LambdaAdapterParams (P I O : Type) where
  eventParser : ApiEvent → ValidUser → P
  schemaParse : P → Except JsError I
  useCase : I → Except JsError O
  responseFormatter : O → HttpResponse

/-- Result of one invocation of the handler returned by
`createLambdaAdapter`: whether the `useCase` was invoked, and the HTTP
response (the formatted success or the `handleError` classification of the
thrown error). -/
structure LambdaRun where
  useCaseInvoked : Bool
  response : HttpResponse
deriving DecidableEq

/-- The handler returned by `createLambdaAdapter`: authentication, body and
required-field checks, `eventParser`, `schema.parse`, `useCase`, response
formatting; every thrown error is classified by `handleError`. -/
def createLambdaAdapter {P I O : Type} (p : LambdaAdapterParams P I O)
    (options : LambdaAdapterOptions) (event : ApiEvent) : LambdaRun :=
  match runAuth options event with
  | Except.error e => ⟨false, handleError e⟩
  | Except.ok validUser =>
    match runBodyChecks options event with
    | Except.error e => ⟨false, handleError e⟩
    | Except.ok _ =>
      match p.schemaParse (p.eventParser event validUser) with
      | Except.error e => ⟨false, handleError e⟩
      | Except.ok parsedInput =>
        match p.useCase parsedInput with
        | Except.error e => ⟨true, handleError e⟩
        | Except.ok result => ⟨true, p.responseFormatter result⟩

/-! ## Concrete fixtures used to evaluate the embedding -/

/-- A wrapped operation that fails with a retryable error on the first two
attempts and succeeds on the third. -/
def retryFn : Nat → AttemptOutcome String Nat := fun j =>
  if j < 3 then AttemptOutcome.err true "parse failure" else AttemptOutcome.ok 42

/-- A three-step saga whose third step's `execute` rejects. -/
def sagaSteps2 : List (SagaStep String Nat) :=
  [⟨Except.ok 10, Except.ok ()⟩, ⟨Except.ok 20, Except.ok ()⟩,
   ⟨Except.error "step 2 failed", Except.ok ()⟩]

/-- A three-step saga whose third step's `execute` rejects and whose second
step's `compensate` also rejects. -/
def sagaSteps7 : List (SagaStep String Nat) :=
  [⟨Except.ok 1, Except.ok ()⟩, ⟨Except.ok 2, Except.error "rollback failed"⟩,
   ⟨Except.error "step 2 failed", Except.ok ()⟩]

/-- A two-step saga whose steps all succeed. -/
def sagaSteps10 : List (SagaStep String Nat) :=
  [⟨Except.ok 1, Except.ok ()⟩, ⟨Except.ok 2, Except.ok ()⟩]

/-- A pipeline whose extraction fails on records with body `bad` and whose
validation and use case otherwise succeed. -/
def pW : SqsPipeline String String String where
  messageExtractor := fun r =>
    if r.body = "bad" then Except.error "Invalid message format in SQS message"
    else Except.ok r.body
  schemaParse := fun m => Except.ok m
  useCase := fun i => Except.ok i

/-- A well-formed SQS source ARN. -/
def goodArn : String := "arn:aws:sqs:us-east-1:123:q"

/-- A record the fixture pipeline processes successfully. -/
def goodRec (id : String) : SqsRecord :=
  { messageId := id, body := "payload", receiptHandle := "rh-" ++ id,
    eventSourceARN := goodArn }

/-- A record whose extraction fails in the fixture pipeline. -/
def badRec (id : String) : SqsRecord :=
  { messageId := id, body := "bad", receiptHandle := "rh-" ++ id,
    eventSourceARN := goodArn }

/-- Concrete lambda-adapter functions whose parsing and use case succeed. -/
def lamParams : LambdaAdapterParams Nat Nat Nat where
  eventParser := fun _ _ => 0
  schemaParse := fun n => Except.ok n
  useCase := fun n => Except.ok n
  responseFormatter := fun _ => { statusCode := 202, message := "accepted" }

/-- An event carrying no valid credential but a well-formed body. -/
def eventNoCred : ApiEvent :=
  { authHeaderUser := none, body := some (RawBody.json (Json.obj [])) }

/-- An event with no body at all. -/
def eventNoBody : ApiEvent := { authHeaderUser := none, body := none }

/-- Adapter options with authentication turned off. -/
def optsNoAuth : LambdaAdapterOptions := { requireAuth := false }

/-! ## Retry lemmas and claims C5, C8 -/

lemma callCount_cons_call (a : Nat) (tr : List RetryEvent) :
    callCount (RetryEvent.call a :: tr) = callCount tr + 1 := by
  simp [callCount, List.filter, isCall]

lemma callCount_cons_sleep (ms : Nat) (tr : List RetryEvent) :
    callCount (RetryEvent.sleep ms :: tr) = callCount tr := by
  simp [callCount, List.filter, isSleep, isCall]

lemma withRetryGo_success {E V : Type} (f : Nat → AttemptOutcome E V) (delay : Nat) (v : V)
    (t : Nat) : ∀ (r a : Nat), t < r →
    (∀ j, a ≤ j → j < a + t → ∃ e, f j = AttemptOutcome.err true e) →
    f (a + t) = AttemptOutcome.ok v →
    (withRetryGo f delay r a).2 = RetryResult.ok v ∧
    callCount (withRetryGo f delay r a).1 = t + 1 := by
  induction t with
  | zero =>
    intro r a hr hpre hok
    obtain ⟨r', rfl⟩ : ∃ r', r = r' + 1 := ⟨r - 1, by omega⟩
    simp only [Nat.add_zero] at hok
    simp [withRetryGo, hok, callCount, List.filter, isCall]
  | succ t ih =>
    intro r a hr hpre hok
    obtain ⟨r', rfl⟩ : ∃ r', r = r' + 1 := ⟨r - 1, by omega⟩
    obtain ⟨e, he⟩ := hpre a le_rfl (by omega)
    have hr0 : ¬ r' = 0 := by omega
    have ih2 := ih r' (a + 1) (by omega)
      (fun j hj1 hj2 => hpre j (by omega) (by omega))
      (by rw [show a + 1 + t = a + (t + 1) from by omega]; exact hok)
    refine ⟨?_, ?_⟩
    · simp only [withRetryGo, he, if_neg hr0]
      exact ih2.1
    · simp only [withRetryGo, he, if_neg hr0, callCount_cons_call, callCount_cons_sleep]
      omega

lemma withRetryGo_exhaust {E V : Type} (f : Nat → AttemptOutcome E V) (delay : Nat)
    (r : Nat) : ∀ (a : Nat), 1 ≤ r →
    (∀ j, a ≤ j → j < a + r → ∃ e, f j = AttemptOutcome.err true e) →
    ∃ e, f (a + r - 1) = AttemptOutcome.err true e ∧
      (withRetryGo f delay r a).2 = RetryResult.thrown e ∧
      callCount (withRetryGo f delay r a).1 = r := by
  induction r with
  | zero => intro a h; omega
  | succ r' ih =>
    intro a _ hall
    obtain ⟨e, he⟩ := hall a le_rfl (by omega)
    by_cases hr0 : r' = 0
    · subst hr0
      refine ⟨e, by simpa using he, ?_, ?_⟩
      · simp [withRetryGo, he]
      · simp [withRetryGo, he, callCount, List.filter, isCall]
    · obtain ⟨e2, he2, hres, hcnt⟩ := ih (a + 1) (by omega)
        (fun j h1 h2 => hall j (by omega) (by omega))
      refine ⟨e2, ?_, ?_, ?_⟩
      · rw [show a + (r' + 1) - 1 = a + 1 + r' - 1 from by omega]; exact he2
      · simp only [withRetryGo, he, if_neg hr0]
        exact hres
      · simp only [withRetryGo, he, if_neg hr0, callCount_cons_call, callCount_cons_sleep]
        omega

lemma withRetryGo_fatal {E V : Type} (f : Nat → AttemptOutcome E V) (delay : Nat) (e : E)
    (t : Nat) : ∀ (r a : Nat), t < r →
    (∀ j, a ≤ j → j < a + t → ∃ e2, f j = AttemptOutcome.err true e2) →
    f (a + t) = AttemptOutcome.err false e →
    (withRetryGo f delay r a).2 = RetryResult.thrown e ∧
    callCount (withRetryGo f delay r a).1 = t + 1 := by
  induction t with
  | zero =>
    intro r a hr hpre hfat
    obtain ⟨r', rfl⟩ : ∃ r', r = r' + 1 := ⟨r - 1, by omega⟩
    simp only [Nat.add_zero] at hfat
    simp [withRetryGo, hfat, callCount, List.filter, isCall]
  | succ t ih =>
    intro r a hr hpre hfat
    obtain ⟨r', rfl⟩ : ∃ r', r = r' + 1 := ⟨r - 1, by omega⟩
    obtain ⟨e2, he2⟩ := hpre a le_rfl (by omega)
    have hr0 : ¬ r' = 0 := by omega
    have ih2 := ih r' (a + 1) (by omega)
      (fun j hj1 hj2 => hpre j (by omega) (by omega))
      (by rw [show a + 1 + t = a + (t + 1) from by omega]; exact hfat)
    refine ⟨?_, ?_⟩
    · simp only [withRetryGo, he2, if_neg hr0]
      exact ih2.1
    · simp only [withRetryGo, he2, if_neg hr0, callCount_cons_call, callCount_cons_sleep]
      omega

lemma withRetryGo_sleep_fixed {E V : Type} (f : Nat → AttemptOutcome E V) (delay : Nat)
    (r : Nat) : ∀ (a : Nat), ∀ ev ∈ (withRetryGo f delay r a).1,
    ∀ ms, ev = RetryEvent.sleep ms → ms = delay := by
  induction r with
  | zero => intro a ev hev; simp [withRetryGo] at hev
  | succ r' ih =>
    intro a ev hev ms hms
    subst hms
    cases hf : f a with
    | ok v =>
      simp [withRetryGo, hf] at hev
    | err retryable e =>
      cases retryable with
      | true =>
        by_cases hr0 : r' = 0
        · subst hr0; simp [withRetryGo, hf] at hev
        · simp only [withRetryGo, hf, if_neg hr0, List.mem_cons] at hev
          rcases hev with h | h | h
          · cases h
          · cases h; rfl
          · exact ih (a + 1) _ h ms rfl
      | false =>
        simp [withRetryGo, hf] at hev

lemma withRetryGo_no_onRetry {E V : Type} (f : Nat → AttemptOutcome E V) (delay : Nat)
    (r : Nat) : ∀ (a : Nat), onRetryCount (withRetryGo f delay r a).1 = 0 := by
  induction r with
  | zero => intro a; simp [withRetryGo, onRetryCount]
  | succ r' ih =>
    intro a
    cases hf : f a with
    | ok v => simp [withRetryGo, hf, onRetryCount, List.filter, isOnRetryCall]
    | err retryable e =>
      cases retryable with
      | true =>
        by_cases hr0 : r' = 0
        · subst hr0; simp [withRetryGo, hf, onRetryCount, List.filter, isOnRetryCall]
        · simp only [withRetryGo, hf, if_neg hr0]
          simpa [onRetryCount, List.filter, isOnRetryCall] using ih (a + 1)
      | false => simp [withRetryGo, hf, onRetryCount, List.filter, isOnRetryCall]

/-- C8: when every failure is of the retryable (`ZodError`/`SyntaxError`)
classification, `withRetry` invokes the wrapped function exactly
`min(config.retries, attempts-until-success)` times and resolves with the
success value when it arrives within the allowed attempts; when the attempts
are exhausted, the last error is re-thrown unchanged; a non-retryable error
is re-thrown at once with no further attempt; and every sleep between
attempts lasts exactly the fixed `config.delay`. -/
theorem c8_retry_bounded_and_reraises {E V : Type} (f : Nat → AttemptOutcome E V)
    (retries delay : Nat) :
    ((∀ (s : Nat) (v : V), 1 ≤ s →
      (∀ j, 1 ≤ j → j < s → ∃ e, f j = AttemptOutcome.err true e) →
      f s = AttemptOutcome.ok v →
      callCount (withRetry f retries delay).1 = min retries s ∧
      (s ≤ retries → (withRetry f retries delay).2 = RetryResult.ok v))
    ∧ ((∀ j, 1 ≤ j → j ≤ retries → ∃ e, f j = AttemptOutcome.err true e) → 1 ≤ retries →
      ∃ e, f retries = AttemptOutcome.err true e ∧
        (withRetry f retries delay).2 = RetryResult.thrown e ∧
        callCount (withRetry f retries delay).1 = retries)
    ∧ (∀ (t : Nat) (e : E), t < retries →
      (∀ j, 1 ≤ j → j ≤ t → ∃ e2, f j = AttemptOutcome.err true e2) →
      f (t + 1) = AttemptOutcome.err false e →
      (withRetry f retries delay).2 = RetryResult.thrown e ∧
      callCount (withRetry f retries delay).1 = t + 1)
    ∧ (∀ ev ∈ (withRetry f retries delay).1, ∀ ms, ev = RetryEvent.sleep ms → ms = delay)) := by
  refine ⟨?_, ?_, ?_, ?_⟩
  · intro s v hs hpre hok
    by_cases hsr : s ≤ retries
    · have h := withRetryGo_success f delay v (s - 1) retries 1 (by omega)
        (fun j h1 h2 => hpre j h1 (by omega))
        (by rw [show 1 + (s - 1) = s from by omega]; exact hok)
      constructor
      · rw [withRetry] at *
        rw [h.2]
        omega
      · intro _
        exact h.1
    · constructor
      · rcases Nat.eq_zero_or_pos retries with h0 | hpos
        · subst h0
          simp [withRetry, withRetryGo, callCount]
        · obtain ⟨e, _, _, hcnt⟩ := withRetryGo_exhaust f delay retries 1 hpos
            (fun j h1 h2 => hpre j h1 (by omega))
          rw [withRetry] at *
          rw [hcnt]
          omega
      · intro h; omega
  · intro hall hpos
    obtain ⟨e, he, hres, hcnt⟩ := withRetryGo_exhaust f delay retries 1 hpos
      (fun j h1 h2 => hall j h1 (by omega))
    exact ⟨e, by simpa [show 1 + retries - 1 = retries from by omega] using he, hres, hcnt⟩
  · intro t e ht hpre hfat
    exact withRetryGo_fatal f delay e t retries 1 (by omega)
      (fun j h1 h2 => hpre j h1 (by omega))
      (by rw [show 1 + t = t + 1 from by omega]; exact hfat)
  · exact withRetryGo_sleep_fixed f delay retries 1

/-- Witness for C8 at a concrete run: a wrapped function failing retryably on
attempts 1 and 2 and succeeding on attempt 3, with 5 attempts allowed, is
invoked exactly 3 times and resolves with the success value. -/
theorem c8_retry_bounded_and_reraises_witness :
    callCount (withRetry retryFn 5 7).1 = 3 ∧
    (withRetry retryFn 5 7).2 = RetryResult.ok 42 := by
  have h := (c8_retry_bounded_and_reraises retryFn 5 7).1 3 42 (by omega)
    (fun j h1 h2 => ⟨"parse failure", by
      have hj : j = 1 ∨ j = 2 := by omega
      rcases hj with hj | hj <;> subst hj <;> rfl⟩)
    rfl
  exact ⟨h.1.trans (by decide), h.2 (by omega)⟩

/-- C5 counterexample: a concrete run that performs retry sleeps and yet
never invokes the configured `onRetry` callback, refuting the claim that
`onRetry` is invoked before each retry sleep. -/
theorem c5_counterexample :
    0 < sleepCount (withRetry retryFn 5 7).1 ∧
    onRetryCount (withRetry retryFn 5 7).1 = 0 := by
  decide

/-- C5 (amended): the `withRetry` body never invokes the configured
`config.onRetry` callback — the config field is accepted but unused — so its
execution trivially never changes which value is returned or which error is
raised. -/
theorem c5_onretry_never_invoked {E V : Type} (f : Nat → AttemptOutcome E V)
    (retries delay : Nat) : onRetryCount (withRetry f retries delay).1 = 0 :=
  withRetryGo_no_onRetry f delay retries 1

/-! ## Saga lemmas and claims C2, C7, C10 -/

lemma compIndices_append : ∀ (a b : List SagaEv),
    compIndices (a ++ b) = compIndices a ++ compIndices b := by
  intro a b
  induction a with
  | nil => rfl
  | cons ev tr ih => cases ev <;> simp [compIndices, ih]

lemma compIndices_runSteps {E V : Type} :
    ∀ (steps : List (SagaStep E V)) (i : Nat) (acc : List V) (c : Nat),
    compIndices (runSteps steps i acc c).trace = [] := by
  intro steps
  induction steps with
  | nil => intro i acc c; rfl
  | cons st rest ih =>
    intro i acc c
    cases hst : st.execute with
    | ok v => simp [runSteps, hst, compIndices, ih]
    | error e => simp [runSteps, hst, compIndices]

lemma compIndices_compensateFrom {E V : Type} (steps : List (SagaStep E V)) :
    ∀ (c : Nat), (∀ j, j < c → (steps.get? j).isSome) →
    compIndices (compensateFrom steps c) = (List.range c).reverse := by
  intro c
  induction c with
  | zero => intro h; rfl
  | succ c ih =>
    intro h
    obtain ⟨st, hst⟩ := Option.isSome_iff_exists.mp (h c (by omega))
    have hst2 : steps[c]? = some st := by simpa [← List.get?_eq_getElem?] using hst
    have hrest := ih (fun j hj => h j (by omega))
    cases hcomp : st.compensate with
    | ok u =>
      simp [compensateFrom, hst, hst2, hcomp, compIndices_append, compIndices, hrest,
        List.range_succ]
    | error ce =>
      simp [compensateFrom, hst, hst2, hcomp, compIndices_append, compIndices, hrest,
        List.range_succ]

lemma runSteps_failAt {E V : Type} (e : E) :
    ∀ (k : Nat) (steps : List (SagaStep E V)) (sk : SagaStep E V) (i : Nat)
      (acc : List V) (c : Nat),
    steps.get? k = some sk → sk.execute = Except.error e → okBefore steps k →
    (runSteps steps i acc c).failure = some e ∧
    (runSteps steps i acc c).completedSteps = c + k := by
  intro k
  induction k with
  | zero =>
    intro steps sk i acc c hk he hpre
    cases steps with
    | nil => simp at hk
    | cons st rest =>
      obtain rfl : st = sk := by simpa using hk
      simp [runSteps, he]
  | succ k ih =>
    intro steps sk i acc c hk he hpre
    cases steps with
    | nil => simp at hk
    | cons st rest =>
      obtain ⟨s0, v0, hs0, hv0⟩ := hpre 0 (by omega)
      obtain rfl : st = s0 := by simpa using hs0
      have hrest := ih rest sk (i + 1) (acc ++ [v0]) (c + 1) (by simpa using hk) he
        (fun j hj => by
          obtain ⟨sj, vj, hsj, hvj⟩ := hpre (j + 1) (by omega)
          exact ⟨sj, vj, by simpa using hsj, hvj⟩)
      constructor
      · simp only [runSteps, hv0]
        exact hrest.1
      · simp only [runSteps, hv0]
        rw [hrest.2]
        omega

lemma runSteps_allOk {E V : Type} :
    ∀ (steps : List (SagaStep E V)) (i : Nat) (acc : List V) (c : Nat),
    (∀ st ∈ steps, ∃ v, st.execute = Except.ok v) →
    (runSteps steps i acc c).failure = none ∧
    (runSteps steps i acc c).results = acc ++ execValues steps ∧
    (runSteps steps i acc c).completedSteps = c + steps.length ∧
    execIndices (runSteps steps i acc c).trace = List.range' i steps.length := by
  intro steps
  induction steps with
  | nil => intro i acc c h; simp [runSteps, execValues, execIndices]
  | cons st rest ih =>
    intro i acc c h
    obtain ⟨v, hv⟩ := h st (by simp)
    have ih2 := ih (i + 1) (acc ++ [v]) (c + 1) (fun s hs => h s (List.mem_cons_of_mem _ hs))
    refine ⟨?_, ?_, ?_, ?_⟩
    · simp only [runSteps, hv]
      exact ih2.1
    · simp only [runSteps, hv]
      rw [ih2.2.1]
      simp [execValues, hv]
    · simp only [runSteps, hv]
      rw [ih2.2.2.1]
      simp
      omega
    · simp only [runSteps, hv, execIndices]
      rw [ih2.2.2.2]
      simp [List.range'_succ]

lemma execValues_length {E V : Type} :
    ∀ (steps : List (SagaStep E V)),
    (∀ st ∈ steps, ∃ v, st.execute = Except.ok v) →
    (execValues steps).length = steps.length := by
  intro steps
  induction steps with
  | nil => intro h; rfl
  | cons st rest ih =>
    intro h
    obtain ⟨v, hv⟩ := h st (by simp)
    have ihh := ih (fun s hs => h s (List.mem_cons_of_mem _ hs))
    have hcons : execValues (st :: rest) = v :: execValues rest := by
      simp only [execValues, List.filterMap_cons, hv]
    rw [hcons]
    simp [ihh]

lemma saga_fail_core {E V : Type} (steps : List (SagaStep E V))
    (k : Nat) (sk : SagaStep E V) (e : E)
    (hk : steps.get? k = some sk) (he : sk.execute = Except.error e)
    (hpre : okBefore steps k) :
    (Saga.mk steps [] 0).execute.2.1 = Except.error e ∧
    compIndices (Saga.mk steps [] 0).execute.1 = (List.range k).reverse := by
  have hrun := runSteps_failAt e k steps sk 0 [] 0 hk he hpre
  have hfail := hrun.1
  have hcompleted := hrun.2
  simp only [Nat.zero_add] at hcompleted
  have hkg : ∀ j, j < k → (steps.get? j).isSome := by
    intro j hj
    obtain ⟨sj, vj, hsj, _⟩ := hpre j hj
    rw [hsj]
    rfl
  constructor
  · simp only [Saga.execute, hfail]
  · simp only [Saga.execute, hfail]
    rw [compIndices_append, compIndices_runSteps, hcompleted,
      compIndices_compensateFrom steps k hkg]
    simp

/-- C2: for a fresh saga whose steps `0..k-1` resolve and whose step `k`
rejects with error `e`, `execute()` rejects with exactly `e`, and the
`compensate` invocations are exactly those of steps `k-1, …, 0` in strictly
descending order — in particular `compensate` is never invoked for step `k`
or any later step. -/
theorem c2_saga_compensates_descending {E V : Type} (steps : List (SagaStep E V))
    (k : Nat) (sk : SagaStep E V) (e : E)
    (hk : steps.get? k = some sk) (he : sk.execute = Except.error e)
    (hpre : okBefore steps k) :
    (Saga.mk steps [] 0).execute.2.1 = Except.error e ∧
    compIndices (Saga.mk steps [] 0).execute.1 = (List.range k).reverse ∧
    (∀ j ∈ compIndices (Saga.mk steps [] 0).execute.1, j < k) := by
  have h := saga_fail_core steps k sk e hk he hpre
  refine ⟨h.1, h.2, ?_⟩
  intro j hj
  rw [h.2] at hj
  simpa using hj

/-- Witness for C2: a three-step saga whose third step fails rejects with the
step's error and compensates steps 1 then 0, in that order. -/
theorem c2_saga_compensates_descending_witness :
    (Saga.mk sagaSteps2 [] 0).execute.2.1 = Except.error "step 2 failed" ∧
    compIndices (Saga.mk sagaSteps2 [] 0).execute.1 = [1, 0] := by
  have h := c2_saga_compensates_descending sagaSteps2 2
    ⟨Except.error "step 2 failed", Except.ok ()⟩ "step 2 failed" rfl rfl
    (by
      intro j hj
      have hj2 : j = 0 ∨ j = 1 := by omega
      rcases hj2 with hj2 | hj2 <;> subst hj2
      · exact ⟨_, 10, rfl, rfl⟩
      · exact ⟨_, 20, rfl, rfl⟩)
  exact ⟨h.1, h.2.1.trans (by decide)⟩

/-- C7: when step `k` of a fresh saga rejects after steps `0..k-1` resolved
and some completed step `j0`'s `compensate` itself rejects, every completed
step — including those before `j0` — still gets its `compensate` invoked, and
the saga still rejects with step `k`'s original error, not the compensation
error. -/
theorem c7_compensation_failure_does_not_stop_rollback {E V : Type}
    (steps : List (SagaStep E V)) (k : Nat) (sk : SagaStep E V) (e : E)
    (hk : steps.get? k = some sk) (he : sk.execute = Except.error e)
    (hpre : okBefore steps k)
    (j0 : Nat) (sj0 : SagaStep E V) (ce : E)
    (hj0 : j0 < k) (hs : steps.get? j0 = some sj0)
    (hcf : sj0.compensate = Except.error ce) :
    (Saga.mk steps [] 0).execute.2.1 = Except.error e ∧
    (∀ j, j < k → j ∈ compIndices (Saga.mk steps [] 0).execute.1) := by
  have h := saga_fail_core steps k sk e hk he hpre
  refine ⟨h.1, ?_⟩
  intro j hj
  rw [h.2]
  simpa using hj

/-- Witness for C7: a saga whose step 2 fails and whose step 1's `compensate`
also fails still compensates step 0 and rejects with step 2's error. -/
theorem c7_compensation_failure_does_not_stop_rollback_witness :
    (Saga.mk sagaSteps7 [] 0).execute.2.1 = Except.error "step 2 failed" ∧
    0 ∈ compIndices (Saga.mk sagaSteps7 [] 0).execute.1 := by
  have h := c7_compensation_failure_does_not_stop_rollback sagaSteps7 2
    ⟨Except.error "step 2 failed", Except.ok ()⟩ "step 2 failed" rfl rfl
    (by
      intro j hj
      have hj2 : j = 0 ∨ j = 1 := by omega
      rcases hj2 with hj2 | hj2 <;> subst hj2
      · exact ⟨_, 1, rfl, rfl⟩
      · exact ⟨_, 2, rfl, rfl⟩)
    1 ⟨Except.ok 2, Except.error "rollback failed"⟩ "rollback failed"
    (by omega) rfl rfl
  exact ⟨h.1, h.2 0 (by omega)⟩

/-- C10: saga execution is not idempotent on one instance — after a fully
successful `execute()`, a second `execute()` on the same instance runs every
step's `execute` again and resolves with an array of twice the length whose
first half is the first run's results, because `results` and
`completedSteps` persist across calls. -/
theorem c10_saga_not_idempotent {E V : Type} (steps : List (SagaStep E V))
    (h : ∀ st ∈ steps, ∃ v, st.execute = Except.ok v) :
    (firstRun steps).2.1 = Except.ok (execValues steps) ∧
    (secondRun steps).2.1 = Except.ok (execValues steps ++ execValues steps) ∧
    (execValues steps ++ execValues steps).length = 2 * steps.length ∧
    (execValues steps ++ execValues steps).take steps.length = execValues steps ∧
    execIndices (secondRun steps).1 = List.range steps.length := by
  have h1 := runSteps_allOk steps 0 [] 0 h
  have hlen := execValues_length steps h
  have hfst : firstRun steps =
      ((runSteps steps 0 [] 0).trace, Except.ok (execValues steps),
        Saga.mk steps (execValues steps) steps.length) := by
    simp only [firstRun, Saga.execute, h1.1]
    rw [Prod.mk.injEq, Prod.mk.injEq]
    refine ⟨rfl, ?_, ?_⟩
    · rw [h1.2.1]; simp
    · rw [Saga.mk.injEq]
      refine ⟨rfl, ?_, ?_⟩
      · rw [h1.2.1]; simp
      · rw [h1.2.2.1]; simp
  have h2 := runSteps_allOk steps 0 (execValues steps) steps.length h
  have hsnd : secondRun steps =
      ((runSteps steps 0 (execValues steps) steps.length).trace,
        Except.ok (execValues steps ++ execValues steps),
        Saga.mk steps (execValues steps ++ execValues steps) (2 * steps.length)) := by
    rw [secondRun, hfst]
    simp only [Saga.execute, h2.1]
    rw [Prod.mk.injEq, Prod.mk.injEq]
    refine ⟨rfl, ?_, ?_⟩
    · rw [h2.2.1]
    · rw [Saga.mk.injEq]
      refine ⟨rfl, ?_, ?_⟩
      · rw [h2.2.1]
      · rw [h2.2.2.1]; omega
  refine ⟨?_, ?_, ?_, ?_, ?_⟩
  · rw [hfst]
  · rw [hsnd]
  · simp [hlen]; omega
  · rw [show steps.length = (execValues steps).length from hlen.symm]
    exact List.take_left _ _
  · rw [hsnd]
    simp only
    rw [h2.2.2.2, List.range_eq_range']

/-- Witness for C10: a two-step always-successful saga resolves with `[1, 2]`
on the first call and with `[1, 2, 1, 2]` on the second call on the same
instance. -/
theorem c10_saga_not_idempotent_witness :
    (firstRun sagaSteps10).2.1 = Except.ok [1, 2] ∧
    (secondRun sagaSteps10).2.1 = Except.ok [1, 2, 1, 2] := by
  have h := c10_saga_not_idempotent sagaSteps10 (by
    intro st hst
    simp [sagaSteps10] at hst
    rcases hst with rfl | rfl
    · exact ⟨1, rfl⟩
    · exact ⟨2, rfl⟩)
  exact ⟨h.1.trans (by decide), h.2.1.trans (by decide)⟩

/-! ## SQS adapter lemmas and claims C1, C4 -/

lemma getQueueUrlFromArn_ok (arn : String) (h : 6 ≤ (splitColon arn.toList).length) :
    ∃ url, getQueueUrlFromArn arn = Except.ok url := by
  have hlen : ¬ ((splitColon arn.toList).map (fun l => String.mk l)).length < 6 := by
    rw [List.length_map]; omega
  rw [getQueueUrlFromArn]
  simp only [if_neg hlen]
  exact ⟨_, rfl⟩

lemma processRecord_ok {M I O : Type} (p : SqsPipeline M I O) (co : Bool) (r : SqsRecord)
    (hok : recordOk p r = true) (harn : arnOk r) :
    ∃ url res, processRecord p co r =
      ([QAction.invoke true, QAction.deleteMsg url r.receiptHandle],
        Except.ok (RecResult.success res)) := by
  unfold recordOk at hok
  cases h1 : p.messageExtractor r with
  | error m => simp [h1] at hok
  | ok raw =>
    simp only [h1] at hok
    cases h2 : p.schemaParse raw with
    | error m => simp [h2] at hok
    | ok inp =>
      simp only [h2] at hok
      cases h3 : p.useCase inp with
      | error m => simp [h3] at hok
      | ok res =>
        obtain ⟨url, hurl⟩ := getQueueUrlFromArn_ok r.eventSourceARN harn.2
        refine ⟨url, res, ?_⟩
        simp [processRecord, h1, h2, h3, harn.1, hurl]

lemma processRecord_fail {M I O : Type} (p : SqsPipeline M I O) (co : Bool) (r : SqsRecord)
    (hfail : recordOk p r = false) :
    ∃ m, ((processRecord p co r).1 = [] ∨ (processRecord p co r).1 = [QAction.invoke false]) ∧
      (processRecord p co r).2 =
        (if co then Except.ok (RecResult.errEntry m) else Except.error m) := by
  unfold recordOk at hfail
  cases h1 : p.messageExtractor r with
  | error m =>
    refine ⟨m, Or.inl ?_, ?_⟩ <;> cases co <;> simp [processRecord, h1]
  | ok raw =>
    simp only [h1] at hfail
    cases h2 : p.schemaParse raw with
    | error m =>
      refine ⟨m, Or.inl ?_, ?_⟩ <;> cases co <;> simp [processRecord, h1, h2]
    | ok inp =>
      simp only [h2] at hfail
      cases h3 : p.useCase inp with
      | error m =>
        refine ⟨m, Or.inr ?_, ?_⟩ <;> cases co <;> simp [processRecord, h1, h2, h3]
      | ok res => simp [h3] at hfail

lemma invoke_true_mem_processRecord {M I O : Type} (p : SqsPipeline M I O) (co : Bool)
    (r : SqsRecord) (h : QAction.invoke true ∈ (processRecord p co r).1) :
    recordOk p r = true := by
  cases hro : recordOk p r with
  | true => rfl
  | false =>
    obtain ⟨m, htr, _⟩ := processRecord_fail p co r hro
    rcases htr with htr | htr <;> rw [htr] at h <;> simp at h

lemma deleteCount_append (a b : List (Nat × QAction)) (i : Nat) :
    deleteCount (a ++ b) i = deleteCount a i + deleteCount b i := by
  simp [deleteCount, List.filter_append]

lemma deleteCount_tagged (acts : List QAction) (n i : Nat) :
    deleteCount (acts.map (fun a => (n, a))) i =
      if n = i then (acts.filter isDelete).length else 0 := by
  induction acts with
  | nil => simp [deleteCount]
  | cons a rest ih =>
    by_cases h : n = i
    · subst h
      cases hda : isDelete a <;>
        simp [deleteCount, List.filter, hda, ih] at ih ⊢ <;> omega
    · have hne : ¬ ((n : Nat) == i) = true := by simpa using h
      simp [deleteCount, List.filter, hne, ih, if_neg h] at ih ⊢
      simpa [if_neg h] using ih

lemma mem_tagged (acts : List QAction) (n i : Nat) (a : QAction) :
    (i, a) ∈ acts.map (fun x => (n, x)) ↔ i = n ∧ a ∈ acts := by
  constructor
  · intro h
    obtain ⟨x, hx, hpair⟩ := List.mem_map.mp h
    obtain ⟨h1, h2⟩ := Prod.mk.injEq _ _ _ _ ▸ hpair
    exact ⟨h1.symm, h2 ▸ hx⟩
  · rintro ⟨rfl, ha⟩
    exact List.mem_map.mpr ⟨a, ha, rfl⟩

lemma deleteCount_eq_zero_of_tags {tr : List (Nat × QAction)} {i : Nat}
    (h : ∀ x ∈ tr, ¬ x.1 = i) : deleteCount tr i = 0 := by
  rw [deleteCount, List.length_eq_zero]
  rw [List.filter_eq_nil]
  intro x hx
  simp [h x hx]

lemma processSeq_trace_cons_ok {M I O : Type} (p : SqsPipeline M I O) (co : Bool)
    (r : SqsRecord) (rest : List SqsRecord) (n : Nat) (res : RecResult O)
    (hpr : (processRecord p co r).2 = Except.ok res) :
    (processSeq p co (r :: rest) n).1 =
      (processRecord p co r).1.map (fun a => (n, a)) ++ (processSeq p co rest (n + 1)).1 := by
  cases hrs : (processSeq p co rest (n + 1)).2 <;> simp [processSeq, hpr, hrs]

lemma processSeq_trace_cons_err {M I O : Type} (p : SqsPipeline M I O) (co : Bool)
    (r : SqsRecord) (rest : List SqsRecord) (n : Nat) (m : String)
    (hpr : (processRecord p co r).2 = Except.error m) :
    (processSeq p co (r :: rest) n).1 =
      (processRecord p co r).1.map (fun a => (n, a)) := by
  simp [processSeq, hpr]

lemma processPar_trace_cons {M I O : Type} (p : SqsPipeline M I O) (co : Bool)
    (r : SqsRecord) (rest : List SqsRecord) (n : Nat) :
    (processPar p co (r :: rest) n).1 =
      (processRecord p co r).1.map (fun a => (n, a)) ++ (processPar p co rest (n + 1)).1 := by
  simp [processPar]

lemma processSeq_tags {M I O : Type} (p : SqsPipeline M I O) (co : Bool) :
    ∀ (rs : List SqsRecord) (n : Nat) (x : Nat × QAction),
    x ∈ (processSeq p co rs n).1 → n ≤ x.1 := by
  intro rs
  induction rs with
  | nil => intro n x hx; simp [processSeq] at hx
  | cons r rest ih =>
    intro n x hx
    obtain ⟨i, a⟩ := x
    have hsplit : (i, a) ∈ (processRecord p co r).1.map (fun a => (n, a)) ∨
        (i, a) ∈ (processSeq p co rest (n + 1)).1 := by
      cases hpr : (processRecord p co r).2 with
      | error m => rw [processSeq_trace_cons_err p co r rest n m hpr] at hx; exact Or.inl hx
      | ok res =>
        rw [processSeq_trace_cons_ok p co r rest n res hpr] at hx
        exact List.mem_append.mp hx
    rcases hsplit with hmem | hmem
    · obtain ⟨rfl, -⟩ := (mem_tagged _ _ _ _).mp hmem
      omega
    · exact le_trans (by omega) (ih (n + 1) (i, a) hmem)

lemma processPar_tags {M I O : Type} (p : SqsPipeline M I O) (co : Bool) :
    ∀ (rs : List SqsRecord) (n : Nat) (x : Nat × QAction),
    x ∈ (processPar p co rs n).1 → n ≤ x.1 := by
  intro rs
  induction rs with
  | nil => intro n x hx; simp [processPar] at hx
  | cons r rest ih =>
    intro n x hx
    obtain ⟨i, a⟩ := x
    rw [processPar_trace_cons] at hx
    rcases List.mem_append.mp hx with hmem | hmem
    · obtain ⟨rfl, -⟩ := (mem_tagged _ _ _ _).mp hmem
      omega
    · exact le_trans (by omega) (ih (n + 1) (i, a) hmem)

lemma processSeq_invoke_true {M I O : Type} (p : SqsPipeline M I O) (co : Bool) :
    ∀ (rs : List SqsRecord) (n i : Nat),
    (i, QAction.invoke true) ∈ (processSeq p co rs n).1 →
    ∃ j r, rs.get? j = some r ∧ i = n + j ∧ recordOk p r = true := by
  intro rs
  induction rs with
  | nil => intro n i hx; simp [processSeq] at hx
  | cons r rest ih =>
    intro n i hx
    have hsplit : (i, QAction.invoke true) ∈ (processRecord p co r).1.map (fun a => (n, a)) ∨
        (i, QAction.invoke true) ∈ (processSeq p co rest (n + 1)).1 := by
      cases hpr : (processRecord p co r).2 with
      | error m => rw [processSeq_trace_cons_err p co r rest n m hpr] at hx; exact Or.inl hx
      | ok res =>
        rw [processSeq_trace_cons_ok p co r rest n res hpr] at hx
        exact List.mem_append.mp hx
    rcases hsplit with hmem | hmem
    · obtain ⟨rfl, hmem2⟩ := (mem_tagged _ _ _ _).mp hmem
      exact ⟨0, r, rfl, by omega, invoke_true_mem_processRecord p co r hmem2⟩
    · obtain ⟨j, r2, hget, hi, hok⟩ := ih (n + 1) i hmem
      exact ⟨j + 1, r2, by simpa using hget, by omega, hok⟩

lemma processPar_invoke_true {M I O : Type} (p : SqsPipeline M I O) (co : Bool) :
    ∀ (rs : List SqsRecord) (n i : Nat),
    (i, QAction.invoke true) ∈ (processPar p co rs n).1 →
    ∃ j r, rs.get? j = some r ∧ i = n + j ∧ recordOk p r = true := by
  intro rs
  induction rs with
  | nil => intro n i hx; simp [processPar] at hx
  | cons r rest ih =>
    intro n i hx
    rw [processPar_trace_cons] at hx
    rcases List.mem_append.mp hx with hmem | hmem
    · obtain ⟨rfl, hmem2⟩ := (mem_tagged _ _ _ _).mp hmem
      exact ⟨0, r, rfl, by omega, invoke_true_mem_processRecord p co r hmem2⟩
    · obtain ⟨j, r2, hget, hi, hok⟩ := ih (n + 1) i hmem
      exact ⟨j + 1, r2, by simpa using hget, by omega, hok⟩

lemma processRecord_co_isOk {M I O : Type} (p : SqsPipeline M I O) (r : SqsRecord) :
    ∃ res, (processRecord p true r).2 = Except.ok res := by
  cases h1 : p.messageExtractor r with
  | error m => exact ⟨RecResult.errEntry m, by simp [processRecord, h1]⟩
  | ok raw =>
    cases h2 : p.schemaParse raw with
    | error m => exact ⟨RecResult.errEntry m, by simp [processRecord, h1, h2]⟩
    | ok inp =>
      cases h3 : p.useCase inp with
      | error m => exact ⟨RecResult.errEntry m, by simp [processRecord, h1, h2, h3]⟩
      | ok res =>
        by_cases h4 : r.eventSourceARN = ""
        · exact ⟨RecResult.errEntry "Missing eventSourceARN in SQS record",
            by simp [processRecord, h1, h2, h3, h4]⟩
        · cases h5 : getQueueUrlFromArn r.eventSourceARN with
          | error m => exact ⟨RecResult.errEntry m, by simp [processRecord, h1, h2, h3, h4, h5]⟩
          | ok url => exact ⟨RecResult.success res, by simp [processRecord, h1, h2, h3, h4, h5]⟩

lemma processRecord_co_ok {M I O : Type} (p : SqsPipeline M I O) (r : SqsRecord) :
    (processRecord p true r).2 = Except.ok (recEntry p r) := by
  obtain ⟨res, h⟩ := processRecord_co_isOk p r
  rw [recEntry, h]

lemma recEntry_fail {M I O : Type} (p : SqsPipeline M I O) (r : SqsRecord)
    (hfail : recordOk p r = false) :
    ∃ m, recEntry p r = (RecResult.errEntry m : RecResult O) := by
  obtain ⟨m, -, hres⟩ := processRecord_fail p true r hfail
  simp at hres
  exact ⟨m, by rw [recEntry, hres]⟩

lemma recEntry_ok {M I O : Type} (p : SqsPipeline M I O) (r : SqsRecord)
    (hok : recordOk p r = true) (harn : arnOk r) :
    ∃ o, recEntry p r = (RecResult.success o : RecResult O) := by
  obtain ⟨url, res, hpr⟩ := processRecord_ok p true r hok harn
  have h : (processRecord p true r).2 = Except.ok (RecResult.success res) := by rw [hpr]
  exact ⟨res, by rw [recEntry, h]⟩

lemma processSeq_deleteCount {M I O : Type} (p : SqsPipeline M I O) (co : Bool) :
    ∀ (rs : List SqsRecord) (n i : Nat), (∀ r ∈ rs, arnOk r) →
    deleteCount (processSeq p co rs n).1 i ≤ 1 ∧
    (deleteCount (processSeq p co rs n).1 i = 1 ↔
      (i, QAction.invoke true) ∈ (processSeq p co rs n).1) := by
  intro rs
  induction rs with
  | nil =>
    intro n i h
    simp [processSeq, deleteCount]
  | cons r rest ih =>
    intro n i harn
    have hih := ih (n + 1) i (fun s hs => harn s (List.mem_cons_of_mem _ hs))
    have htail0 : i = n → deleteCount (processSeq p co rest (n + 1)).1 i = 0 := by
      intro hin
      exact deleteCount_eq_zero_of_tags (fun x hx => by
        have := processSeq_tags p co rest (n + 1) x hx
        omega)
    have htailmem : i = n → (i, QAction.invoke true) ∉ (processSeq p co rest (n + 1)).1 := by
      intro hin hmem
      have := processSeq_tags p co rest (n + 1) _ hmem
      simp at this
      omega
    by_cases hro : recordOk p r = true
    · obtain ⟨url, res, hpr⟩ := processRecord_ok p co r hro (harn r (List.mem_cons_self r rest))
      have htr : (processRecord p co r).1 =
          [QAction.invoke true, QAction.deleteMsg url r.receiptHandle] := by rw [hpr]
      have hpr2 : (processRecord p co r).2 = Except.ok (RecResult.success res) := by rw [hpr]
      rw [processSeq_trace_cons_ok p co r rest n _ hpr2, htr]
      rw [deleteCount_append, deleteCount_tagged,
        show (List.filter isDelete
          [QAction.invoke true, QAction.deleteMsg url r.receiptHandle]).length = 1 from rfl]
      by_cases hin : n = i
      · rw [if_pos hin, htail0 hin.symm]
        refine ⟨by omega, ?_, ?_⟩
        · intro _
          exact List.mem_append.mpr (Or.inl ((mem_tagged _ _ _ _).mpr ⟨hin.symm, by simp⟩))
        · intro _; omega
      · rw [if_neg hin, Nat.zero_add, hih.2]
        refine ⟨hih.1, ?_, ?_⟩
        · intro hm; exact List.mem_append.mpr (Or.inr hm)
        · intro hm
          rcases List.mem_append.mp hm with hm | hm
          · obtain ⟨h1, -⟩ := (mem_tagged _ _ _ _).mp hm
            exact absurd h1.symm hin
          · exact hm
    · have hro2 : recordOk p r = false := by simpa using hro
      obtain ⟨m, htr, hres⟩ := processRecord_fail p co r hro2
      have htag0 : deleteCount ((processRecord p co r).1.map (fun a => (n, a))) i = 0 := by
        rcases htr with htr | htr <;> rw [htr, deleteCount_tagged] <;> simp [isDelete]
      have htagmem : (i, QAction.invoke true) ∉ (processRecord p co r).1.map (fun a => (n, a)) := by
        intro hm
        obtain ⟨-, hm2⟩ := (mem_tagged _ _ _ _).mp hm
        rcases htr with htr | htr <;> rw [htr] at hm2 <;> simp at hm2
      cases co with
      | false =>
        simp at hres
        rw [processSeq_trace_cons_err p false r rest n m hres]
        rw [htag0]
        refine ⟨by omega, ?_, ?_⟩
        · intro h; exact absurd h (by omega)
        · intro hm; exact absurd hm htagmem
      | true =>
        simp at hres
        rw [processSeq_trace_cons_ok p true r rest n _ hres]
        rw [deleteCount_append, htag0, Nat.zero_add, hih.2]
        refine ⟨hih.1, ?_, ?_⟩
        · intro hm; exact List.mem_append.mpr (Or.inr hm)
        · intro hm
          rcases List.mem_append.mp hm with hm | hm
          · exact absurd hm htagmem
          · exact hm

lemma processPar_deleteCount {M I O : Type} (p : SqsPipeline M I O) (co : Bool) :
    ∀ (rs : List SqsRecord) (n i : Nat), (∀ r ∈ rs, arnOk r) →
    deleteCount (processPar p co rs n).1 i ≤ 1 ∧
    (deleteCount (processPar p co rs n).1 i = 1 ↔
      (i, QAction.invoke true) ∈ (processPar p co rs n).1) := by
  intro rs
  induction rs with
  | nil =>
    intro n i h
    simp [processPar, deleteCount]
  | cons r rest ih =>
    intro n i harn
    have hih := ih (n + 1) i (fun s hs => harn s (List.mem_cons_of_mem _ hs))
    have htail0 : i = n → deleteCount (processPar p co rest (n + 1)).1 i = 0 := by
      intro hin
      exact deleteCount_eq_zero_of_tags (fun x hx => by
        have := processPar_tags p co rest (n + 1) x hx
        omega)
    rw [processPar_trace_cons]
    by_cases hro : recordOk p r = true
    · obtain ⟨url, res, hpr⟩ := processRecord_ok p co r hro (harn r (List.mem_cons_self r rest))
      have htr : (processRecord p co r).1 =
          [QAction.invoke true, QAction.deleteMsg url r.receiptHandle] := by rw [hpr]
      rw [htr, deleteCount_append, deleteCount_tagged,
        show (List.filter isDelete
          [QAction.invoke true, QAction.deleteMsg url r.receiptHandle]).length = 1 from rfl]
      by_cases hin : n = i
      · rw [if_pos hin, htail0 hin.symm]
        refine ⟨by omega, ?_, ?_⟩
        · intro _
          exact List.mem_append.mpr (Or.inl ((mem_tagged _ _ _ _).mpr ⟨hin.symm, by simp⟩))
        · intro _; omega
      · rw [if_neg hin, Nat.zero_add, hih.2]
        refine ⟨hih.1, ?_, ?_⟩
        · intro hm; exact List.mem_append.mpr (Or.inr hm)
        · intro hm
          rcases List.mem_append.mp hm with hm | hm
          · obtain ⟨h1, -⟩ := (mem_tagged _ _ _ _).mp hm
            exact absurd h1.symm hin
          · exact hm
    · have hro2 : recordOk p r = false := by simpa using hro
      obtain ⟨m, htr, -⟩ := processRecord_fail p co r hro2
      have htag0 : deleteCount ((processRecord p co r).1.map (fun a => (n, a))) i = 0 := by
        rcases htr with htr | htr <;> rw [htr, deleteCount_tagged] <;> simp [isDelete]
      have htagmem : (i, QAction.invoke true) ∉ (processRecord p co r).1.map (fun a => (n, a)) := by
        intro hm
        obtain ⟨-, hm2⟩ := (mem_tagged _ _ _ _).mp hm
        rcases htr with htr | htr <;> rw [htr] at hm2 <;> simp at hm2
      rw [deleteCount_append, htag0, Nat.zero_add, hih.2]
      refine ⟨hih.1, ?_, ?_⟩
      · intro hm; exact List.mem_append.mpr (Or.inr hm)
      · intro hm
        rcases List.mem_append.mp hm with hm | hm
        · exact absurd hm htagmem
        · exact hm

lemma processSeq_results {M I O : Type} (p : SqsPipeline M I O) :
    ∀ (rs : List SqsRecord) (n : Nat),
    (processSeq p true rs n).2 = Except.ok (rs.map (recEntry p)) := by
  intro rs
  induction rs with
  | nil => intro n; rfl
  | cons r rest ih =>
    intro n
    simp [processSeq, processRecord_co_ok p r, ih (n + 1)]

lemma processPar_results {M I O : Type} (p : SqsPipeline M I O) :
    ∀ (rs : List SqsRecord) (n : Nat),
    (processPar p true rs n).2 = Except.ok (rs.map (recEntry p)) := by
  intro rs
  induction rs with
  | nil => intro n; rfl
  | cons r rest ih =>
    intro n
    simp [processPar, processRecord_co_ok p r, ih (n + 1)]

lemma processSeq_abort {M I O : Type} (p : SqsPipeline M I O) :
    ∀ (j : Nat) (rs : List SqsRecord) (n : Nat) (rj : SqsRecord),
    rs.get? j = some rj → recordOk p rj = false →
    (∀ l, l < j → ∀ rl, rs.get? l = some rl → recordOk p rl = true) →
    (∀ r ∈ rs, arnOk r) →
    (∃ m, (processSeq p false rs n).2 = Except.error m) ∧
    (∀ x ∈ (processSeq p false rs n).1, x.1 ≤ n + j) := by
  intro j
  induction j with
  | zero =>
    intro rs n rj hget hro hpre harn
    cases rs with
    | nil => simp at hget
    | cons r rest =>
      obtain rfl : r = rj := by simpa using hget
      obtain ⟨m, htr, hres⟩ := processRecord_fail p false r hro
      simp at hres
      refine ⟨⟨m, ?_⟩, ?_⟩
      · simp [processSeq, hres]
      · rw [processSeq_trace_cons_err p false r rest n m hres]
        intro x hx
        obtain ⟨i, a⟩ := x
        obtain ⟨rfl, -⟩ := (mem_tagged _ _ _ _).mp hx
        omega
  | succ j ih =>
    intro rs n rj hget hro hpre harn
    cases rs with
    | nil => simp at hget
    | cons r rest =>
      have hr0 : recordOk p r = true := hpre 0 (by omega) r rfl
      obtain ⟨url, res, hpr⟩ := processRecord_ok p false r hr0 (harn r (List.mem_cons_self r rest))
      have hpr2 : (processRecord p false r).2 = Except.ok (RecResult.success res) := by rw [hpr]
      obtain ⟨⟨m, hm⟩, htags⟩ := ih rest (n + 1) rj (by simpa using hget) hro
        (fun l hl rl hrl => hpre (l + 1) (by omega) rl (by simpa using hrl))
        (fun s hs => harn s (List.mem_cons_of_mem _ hs))
      constructor
      · exact ⟨m, by simp [processSeq, hpr2, hm]⟩
      · rw [processSeq_trace_cons_ok p false r rest n _ hpr2]
        intro x hx
        rcases List.mem_append.mp hx with hx | hx
        · obtain ⟨i, a⟩ := x
          obtain ⟨rfl, -⟩ := (mem_tagged _ _ _ _).mp hx
          omega
        · have := htags x hx
          omega

lemma processSeq_ok_processed {M I O : Type} (p : SqsPipeline M I O) :
    ∀ (j : Nat) (rs : List SqsRecord) (n : Nat) (r : SqsRecord),
    rs.get? j = some r → recordOk p r = true → (∀ s ∈ rs, arnOk s) →
    (n + j, QAction.invoke true) ∈ (processSeq p true rs n).1 := by
  intro j
  induction j with
  | zero =>
    intro rs n r hget hro harn
    cases rs with
    | nil => simp at hget
    | cons r0 rest =>
      obtain rfl : r0 = r := by simpa using hget
      obtain ⟨url, res, hpr⟩ := processRecord_ok p true r0 hro (harn r0 (List.mem_cons_self r0 rest))
      have htr : (processRecord p true r0).1 =
          [QAction.invoke true, QAction.deleteMsg url r0.receiptHandle] := by rw [hpr]
      rw [processSeq_trace_cons_ok p true r0 rest n _ (processRecord_co_ok p r0), htr]
      exact List.mem_append.mpr (Or.inl ((mem_tagged _ _ _ _).mpr ⟨by omega, by simp⟩))
  | succ j ih =>
    intro rs n r hget hro harn
    cases rs with
    | nil => simp at hget
    | cons r0 rest =>
      have hmem := ih rest (n + 1) r (by simpa using hget) hro
        (fun s hs => harn s (List.mem_cons_of_mem _ hs))
      rw [processSeq_trace_cons_ok p true r0 rest n _ (processRecord_co_ok p r0)]
      apply List.mem_append.mpr
      right
      rw [show n + (j + 1) = n + 1 + j from by omega]
      exact hmem

lemma processPar_ok_processed {M I O : Type} (p : SqsPipeline M I O) (co : Bool) :
    ∀ (j : Nat) (rs : List SqsRecord) (n : Nat) (r : SqsRecord),
    rs.get? j = some r → recordOk p r = true → (∀ s ∈ rs, arnOk s) →
    (n + j, QAction.invoke true) ∈ (processPar p co rs n).1 := by
  intro j
  induction j with
  | zero =>
    intro rs n r hget hro harn
    cases rs with
    | nil => simp at hget
    | cons r0 rest =>
      obtain rfl : r0 = r := by simpa using hget
      obtain ⟨url, res, hpr⟩ := processRecord_ok p co r0 hro (harn r0 (List.mem_cons_self r0 rest))
      have htr : (processRecord p co r0).1 =
          [QAction.invoke true, QAction.deleteMsg url r0.receiptHandle] := by rw [hpr]
      rw [processPar_trace_cons, htr]
      exact List.mem_append.mpr (Or.inl ((mem_tagged _ _ _ _).mpr ⟨by omega, by simp⟩))
  | succ j ih =>
    intro rs n r hget hro harn
    cases rs with
    | nil => simp at hget
    | cons r0 rest =>
      have hmem := ih rest (n + 1) r (by simpa using hget) hro
        (fun s hs => harn s (List.mem_cons_of_mem _ hs))
      rw [processPar_trace_cons]
      apply List.mem_append.mpr
      right
      rw [show n + (j + 1) = n + 1 + j from by omega]
      exact hmem

lemma sqsHandler_trace {M I O : Type} (p : SqsPipeline M I O) (opts : SqsAdapterOptions)
    (records : List SqsRecord) :
    (sqsHandler p opts records).1 =
      if records.isEmpty then ([] : List (Nat × QAction))
      else if opts.processInParallel then (processPar p opts.continueOnError records 0).1
      else (processSeq p opts.continueOnError records 0).1 := by
  by_cases h : records.isEmpty
  · simp [sqsHandler, h]
  · by_cases hp : opts.processInParallel
    · cases h2 : (processPar p opts.continueOnError records 0).2 with
      | ok rs => simp [sqsHandler, h, hp, h2]
      | error m => simp [sqsHandler, h, hp, h2]
    · cases h2 : (processSeq p opts.continueOnError records 0).2 with
      | ok rs => simp [sqsHandler, h, hp, h2]
      | error m => simp [sqsHandler, h, hp, h2]

lemma sqsHandler_results {M I O : Type} (p : SqsPipeline M I O) (par : Bool)
    (records : List SqsRecord) (hne : records ≠ []) :
    (sqsHandler p ⟨par, true⟩ records).2 =
      BatchOutcome.results (records.map (recEntry p)) := by
  have hempty : records.isEmpty = false := by simpa using hne
  cases par
  · simp [sqsHandler, hempty, processSeq_results p records 0]
  · simp [sqsHandler, hempty, processPar_results p records 0]

/-- C1: for every batch whose records carry the well-formed source ARNs SQS
guarantees, and for every record index: the adapter sends at most one SQS
delete for that record; it sends exactly one if and only if that record's
use-case invocation resolved successfully; and a record whose extraction,
schema validation or use case failed is never deleted. -/
theorem c1_ack_iff_use_case_success {M I O : Type} (p : SqsPipeline M I O)
    (opts : SqsAdapterOptions) (records : List SqsRecord) (i : Nat)
    (harn : ∀ r ∈ records, arnOk r) :
    deleteCount (sqsHandler p opts records).1 i ≤ 1 ∧
    (deleteCount (sqsHandler p opts records).1 i = 1 ↔
      (i, QAction.invoke true) ∈ (sqsHandler p opts records).1) ∧
    (∀ r, records.get? i = some r → recordOk p r = false →
      deleteCount (sqsHandler p opts records).1 i = 0) := by
  rw [sqsHandler_trace]
  by_cases h : records.isEmpty
  · obtain rfl : records = [] := by simpa using h
    simp [deleteCount]
  · have hb : records.isEmpty = false := by simpa using h
    rw [if_neg (by simp [hb])]
    by_cases hp : opts.processInParallel
    · rw [if_pos hp]
      have h1 := processPar_deleteCount p opts.continueOnError records 0 i harn
      refine ⟨h1.1, h1.2, ?_⟩
      intro r hget hro
      by_contra hcnt0
      have hcnt : deleteCount (processPar p opts.continueOnError records 0).1 i = 1 := by
        have := h1.1; omega
      obtain ⟨j, r2, hget2, hij, hok⟩ :=
        processPar_invoke_true p opts.continueOnError records 0 i (h1.2.mp hcnt)
      obtain rfl : i = j := by omega
      rw [hget] at hget2
      obtain rfl : r = r2 := by simpa using hget2
      rw [hro] at hok
      exact absurd hok (by simp)
    · rw [if_neg hp]
      have h1 := processSeq_deleteCount p opts.continueOnError records 0 i harn
      refine ⟨h1.1, h1.2, ?_⟩
      intro r hget hro
      by_contra hcnt0
      have hcnt : deleteCount (processSeq p opts.continueOnError records 0).1 i = 1 := by
        have := h1.1; omega
      obtain ⟨j, r2, hget2, hij, hok⟩ :=
        processSeq_invoke_true p opts.continueOnError records 0 i (h1.2.mp hcnt)
      obtain rfl : i = j := by omega
      rw [hget] at hget2
      obtain rfl : r = r2 := by simpa using hget2
      rw [hro] at hok
      exact absurd hok (by simp)

/-- Witness for C1 at a concrete run: a parallel batch of one succeeding and
one extraction-failing record, inspected at record index 0. -/
theorem c1_ack_iff_use_case_success_witness :
    deleteCount (sqsHandler pW ⟨true, true⟩ [goodRec "A", badRec "B"]).1 0 ≤ 1 ∧
    (deleteCount (sqsHandler pW ⟨true, true⟩ [goodRec "A", badRec "B"]).1 0 = 1 ↔
      (0, QAction.invoke true) ∈ (sqsHandler pW ⟨true, true⟩ [goodRec "A", badRec "B"]).1) ∧
    (∀ r, [goodRec "A", badRec "B"].get? 0 = some r → recordOk pW r = false →
      deleteCount (sqsHandler pW ⟨true, true⟩ [goodRec "A", badRec "B"]).1 0 = 0) :=
  c1_ack_iff_use_case_success pW ⟨true, true⟩ [goodRec "A", badRec "B"] 0 (by
    intro r hr
    simp at hr
    rcases hr with rfl | rfl <;> exact ⟨by decide, by decide⟩)

/-- C4 counterexample: first, two single-record batches whose only records
fail extraction and differ only in `messageId` produce identical batch
results — so the per-record error entry is `{error}` and carries no record
id, refuting `{recordId, error}`; second, with `continueOnError = false` and
the default parallel dispatch, the failing first record does not abort the
second record, which is still invoked and acknowledged. -/
theorem c4_counterexample :
    ((sqsHandler pW ⟨false, true⟩ [badRec "A"]).2 =
      (sqsHandler pW ⟨false, true⟩ [badRec "B"]).2) ∧
    (badRec "A").messageId ≠ (badRec "B").messageId ∧
    (1, QAction.invoke true) ∈ (sqsHandler pW ⟨true, false⟩ [badRec "A", goodRec "C"]).1 ∧
    deleteCount (sqsHandler pW ⟨true, false⟩ [badRec "A", goodRec "C"]).1 1 = 1 := by
  refine ⟨by decide, by decide, by decide, by decide⟩

/-- C4 (amended): with `continueOnError = true` (either dispatch mode), one
failing record does not block acknowledgment of the other successful records,
and each failing record contributes a per-record `{error}` entry identified by
its position in the result array (the entry has no record-id field); with
`continueOnError = false` and sequential processing, the first failing record
aborts processing of all subsequent records; with parallel dispatch all
records are already dispatched and each is still processed to completion. -/
theorem c4_error_isolation_and_abort {M I O : Type} (p : SqsPipeline M I O)
    (records : List SqsRecord) (harn : ∀ r ∈ records, arnOk r) :
    ((∀ par : Bool, records ≠ [] →
      (sqsHandler p ⟨par, true⟩ records).2 =
        BatchOutcome.results (records.map (recEntry p)) ∧
      (records.map (recEntry p)).length = records.length ∧
      (∀ j r, records.get? j = some r → recordOk p r = false →
        ∃ m, recEntry p r = (RecResult.errEntry m : RecResult O)) ∧
      (∀ j r, records.get? j = some r → recordOk p r = true →
        deleteCount (sqsHandler p ⟨par, true⟩ records).1 j = 1))
    ∧ (∀ j rj, records.get? j = some rj → recordOk p rj = false →
        (∀ l, l < j → ∀ rl, records.get? l = some rl → recordOk p rl = true) →
        (∃ m, (sqsHandler p ⟨false, false⟩ records).2 = BatchOutcome.fatal m) ∧
        (∀ i a, j < i → (i, a) ∉ (sqsHandler p ⟨false, false⟩ records).1))
    ∧ (∀ j r, records.get? j = some r → recordOk p r = true →
        (j, QAction.invoke true) ∈ (sqsHandler p ⟨true, false⟩ records).1 ∧
        deleteCount (sqsHandler p ⟨true, false⟩ records).1 j = 1)) := by
  refine ⟨?_, ?_, ?_⟩
  · intro par hne
    have hempty : records.isEmpty = false := by simpa using hne
    refine ⟨sqsHandler_results p par records hne, by simp, ?_, ?_⟩
    · intro j r hget hro
      exact recEntry_fail p r hro
    · intro j r hget hro
      have htr : (sqsHandler p ⟨par, true⟩ records).1 =
          if par then (processPar p true records 0).1 else (processSeq p true records 0).1 := by
        rw [sqsHandler_trace]
        simp [hempty]
      cases par
      · rw [htr, if_neg (by simp)]
        have hmem := processSeq_ok_processed p j records 0 r hget hro harn
        rw [Nat.zero_add] at hmem
        exact (processSeq_deleteCount p true records 0 j harn).2.mpr hmem
      · rw [htr, if_pos rfl]
        have hmem := processPar_ok_processed p true j records 0 r hget hro harn
        rw [Nat.zero_add] at hmem
        exact (processPar_deleteCount p true records 0 j harn).2.mpr hmem
  · intro j rj hget hro hpre
    have hne : records ≠ [] := by
      intro he; subst he; simp at hget
    have hempty : records.isEmpty = false := by simpa using hne
    obtain ⟨⟨m, hm⟩, htags⟩ := processSeq_abort p j records 0 rj hget hro hpre harn
    constructor
    · exact ⟨m, by simp [sqsHandler, hempty, hm]⟩
    · intro i a hji hmem
      rw [sqsHandler_trace, if_neg (by simp [hempty]), if_neg (by simp)] at hmem
      have := htags (i, a) hmem
      simp at this
      omega
  · intro j r hget hro
    have hne : records ≠ [] := by
      intro he; subst he; simp at hget
    have hempty : records.isEmpty = false := by simpa using hne
    have htr : (sqsHandler p ⟨true, false⟩ records).1 = (processPar p false records 0).1 := by
      rw [sqsHandler_trace]
      simp [hempty]
    rw [htr]
    have hmem := processPar_ok_processed p false j records 0 r hget hro harn
    rw [Nat.zero_add] at hmem
    exact ⟨hmem, (processPar_deleteCount p false records 0 j harn).2.mpr hmem⟩

/-- Witness for C4 at a concrete two-record batch whose first record fails
extraction: with `continueOnError = true` the batch result is the positional
entry array; with sequential `continueOnError = false` the handler returns the
fatal classification; with parallel dispatch the second record is still
invoked. -/
theorem c4_error_isolation_and_abort_witness :
    (sqsHandler pW ⟨false, true⟩ [badRec "A", goodRec "C"]).2 =
      BatchOutcome.results ([badRec "A", goodRec "C"].map (recEntry pW)) ∧
    (∃ m, (sqsHandler pW ⟨false, false⟩ [badRec "A", goodRec "C"]).2 =
      BatchOutcome.fatal m) ∧
    ((1 : Nat), QAction.invoke true) ∈
      (sqsHandler pW ⟨true, false⟩ [badRec "A", goodRec "C"]).1 := by
  have harn : ∀ r ∈ [badRec "A", goodRec "C"], arnOk r := by
    intro r hr
    simp at hr
    rcases hr with rfl | rfl <;> exact ⟨by decide, by decide⟩
  have h := c4_error_isolation_and_abort pW [badRec "A", goodRec "C"] harn
  refine ⟨(h.1 false (by decide)).1, ?_, ?_⟩
  · exact (h.2.1 0 (badRec "A") rfl (by decide)
      (fun l hl rl hrl => absurd hl (by omega))).1
  · exact (h.2.2 1 (goodRec "C") rfl (by decide)).1

/-! ## Lambda adapter lemmas and claims C3, C6, C9 -/

/-- C3: evaluation of the adapter at the failing input.  A RequestAdapter
invocation with the default `requireAuth` whose event carries no valid
credential never invokes the use case, but the response is the 500
`Internal Server Error` classification — not the 401 of the error taxonomy —
because `getValidUser` throws a plain `Error('Unauthorized')` that
`handleError` has no authentication branch for. -/
theorem c3_no_credential_gives_500_not_401 :
    (createLambdaAdapter lamParams {} eventNoCred).useCaseInvoked = false ∧
    (createLambdaAdapter lamParams {} eventNoCred).response.statusCode = 500 ∧
    (createLambdaAdapter lamParams {} eventNoCred).response.statusCode ≠ 401 ∧
    (createLambdaAdapter lamParams {} eventNoCred).response.message =
      "Internal Server Error" := by
  refine ⟨rfl, rfl, by decide, rfl⟩

/-- C6 counterexample: with `requireBody` left at its default and no body,
the response status is 400 as claimed, but its message is the constant
`AppError`, which does not mention the missing body; the use case is never
invoked. -/
theorem c6_counterexample :
    (createLambdaAdapter lamParams optsNoAuth eventNoBody).response.statusCode = 400 ∧
    (createLambdaAdapter lamParams optsNoAuth eventNoBody).response.message = "AppError" ∧
    strContains (createLambdaAdapter lamParams optsNoAuth eventNoBody).response.message
      "body" = false ∧
    strContains (createLambdaAdapter lamParams optsNoAuth eventNoBody).response.message
      "Body" = false ∧
    (createLambdaAdapter lamParams optsNoAuth eventNoBody).useCaseInvoked = false := by
  refine ⟨rfl, rfl, by decide, by decide, rfl⟩

/-- C6 (amended): for every adapter invocation with `requireBody = true`, a
missing body, and an authentication step that passes or is disabled, the
response has status 400 with the fixed classifier message `AppError` — the
internally thrown `AppError`'s message `Missing request body` mentions the
body but `handleError` discards it — and the use case is never invoked. -/
theorem c6_missing_body_400_generic_message {P I O : Type}
    (p : LambdaAdapterParams P I O) (options : LambdaAdapterOptions) (event : ApiEvent)
    (hbody : options.requireBody = true) (hnobody : event.body = none)
    (hauth : options.requireAuth = false ∨
      ∃ u, event.authHeaderUser = some u ∧ u.userId ≠ "") :
    createLambdaAdapter p options event =
      ⟨false, { statusCode := 400, message := "AppError" }⟩ := by
  have hbc : runBodyChecks options event =
      Except.error (JsError.appError 400 "Missing request body") := by
    rw [runBodyChecks, if_pos (by simp [hbody]), hnobody]
  have hra : ∃ vu, runAuth options event = Except.ok vu := by
    rcases hauth with hna | ⟨u, hu, huid⟩
    · exact ⟨{ userId := "" }, by rw [runAuth, if_neg (by simp [hna])]⟩
    · by_cases hr : options.requireAuth ≠ false
      · refine ⟨u, ?_⟩
        rw [runAuth, if_pos hr]
        simp only [getValidUser, hu]
        simp [huid]
      · exact ⟨{ userId := "" }, by rw [runAuth, if_neg hr]⟩
  obtain ⟨vu, hra⟩ := hra
  simp only [createLambdaAdapter, hra, hbc]
  rfl

/-- Witness for C6 at a concrete event with no body and authentication
disabled. -/
theorem c6_missing_body_400_generic_message_witness :
    createLambdaAdapter lamParams optsNoAuth eventNoBody =
      ⟨false, { statusCode := 400, message := "AppError" }⟩ :=
  c6_missing_body_400_generic_message lamParams optsNoAuth eventNoBody rfl rfl (Or.inl rfl)

lemma checkRequiredFields_obj (kvs : List (String × Json)) :
    ∀ fields : List String,
    ((checkRequiredFields fields (Json.obj kvs) = Except.ok ()) ↔
      ∀ f ∈ fields, (kvs.lookup f).isSome) ∧
    ((∃ f ∈ fields, kvs.lookup f = none) →
      ∃ f, f ∈ fields ∧ kvs.lookup f = none ∧
        checkRequiredFields fields (Json.obj kvs) =
          Except.error (JsError.appError 400 ("Missing required field: " ++ f))) := by
  intro fields
  induction fields with
  | nil =>
    constructor
    · simp [checkRequiredFields]
    · simp
  | cons f rest ih =>
    cases hf : kvs.lookup f with
    | none =>
      constructor
      · constructor
        · intro h
          rw [checkRequiredFields] at h
          simp [jsField, hf] at h
        · intro h
          have h2 := h f (List.mem_cons_self f rest)
          rw [hf] at h2
          simp at h2
      · intro _
        refine ⟨f, List.mem_cons_self f rest, hf, ?_⟩
        rw [checkRequiredFields]
        simp [jsField, hf]
    | some v =>
      constructor
      · constructor
        · intro h g hg
          rcases List.mem_cons.mp hg with rfl | hg2
          · rw [hf]; rfl
          · have hrec : checkRequiredFields rest (Json.obj kvs) = Except.ok () := by
              rw [checkRequiredFields] at h
              simpa [jsField, hf] using h
            exact (ih.1.mp hrec) g hg2
        · intro h
          rw [checkRequiredFields]
          simp only [jsField, hf]
          exact ih.1.mpr (fun g hg => h g (List.mem_cons_of_mem _ hg))
      · rintro ⟨g, hg, hgnone⟩
        rcases List.mem_cons.mp hg with rfl | hg2
        · rw [hgnone] at hf; cases hf
        · obtain ⟨g2, hg2m, hg2n, hrec⟩ := ih.2 ⟨g, hg2, hgnone⟩
          refine ⟨g2, List.mem_cons_of_mem _ hg2m, hg2n, ?_⟩
          rw [checkRequiredFields]
          simp only [jsField, hf]
          exact hrec

/-- C9: with a non-empty `requiredFields` configuration and a present JSON
object body, the required-fields check fails exactly when some listed field
maps to `undefined` (is absent from the parsed body), raising the 400
`Missing required field` error for it; a field bound to JSON `null` or to the
empty string passes the check. -/
theorem c9_required_fields_undefined_only (fields : List String)
    (kvs : List (String × Json)) (hne : fields ≠ []) :
    ((checkRequiredFields fields (Json.obj kvs) = Except.ok ()) ↔
      ∀ f ∈ fields, (kvs.lookup f).isSome) ∧
    ((∃ f ∈ fields, kvs.lookup f = none) →
      ∃ f, f ∈ fields ∧ kvs.lookup f = none ∧
        checkRequiredFields fields (Json.obj kvs) =
          Except.error (JsError.appError 400 ("Missing required field: " ++ f))) ∧
    ((∀ f ∈ fields, kvs.lookup f = some Json.null ∨ kvs.lookup f = some (Json.str "")) →
      checkRequiredFields fields (Json.obj kvs) = Except.ok ()) := by
  have h := checkRequiredFields_obj kvs fields
  refine ⟨h.1, h.2, ?_⟩
  intro hall
  apply h.1.mpr
  intro f hf
  rcases hall f hf with hnull | hempty
  · rw [hnull]; rfl
  · rw [hempty]; rfl

/-- Witness for C9: fields bound to `null` and to the empty string pass the
check. -/
theorem c9_required_fields_undefined_only_witness :
    checkRequiredFields ["a", "b"] (Json.obj [("a", Json.null), ("b", Json.str "")]) =
      Except.ok () := by
  have h := c9_required_fields_undefined_only ["a", "b"]
    [("a", Json.null), ("b", Json.str "")] (by simp)
  apply h.2.2
  intro f hf
  rcases List.mem_cons.mp hf with rfl | hf2
  · left; rfl
  · rcases List.mem_cons.mp hf2 with rfl | hf3
    · right; rfl
    · simp at hf3

end FsTemplate
